import Mathlib

/-!
Verification of the nitro-cli static-site generator against its
natural-language specification.  The Python sources under src/nitro are
shallowly embedded: Python dicts become association lists over String keys
(insertion-ordered, unique keys, exactly as Python dicts behave), JSON-like
values become the inductive type PyVal, and each method is translated into a
pure Lean function that mirrors the control flow of the source line by line.
-/

namespace Nitro

/-- A JSON-compatible Python value as stored in a NitroDataStore: strings,
integers, booleans, None, lists and (insertion-ordered) dicts. -/
inductive PyVal where
  | vstr (s : String)
  | vint (n : Int)
  | vbool (b : Bool)
  | vnone
  | vlist (xs : List PyVal)
  | vdict (entries : List (String × PyVal))

/-- Python dict lookup d[k] / d.get(k): the value of the first (and, for a
well-formed dict, only) entry with the given key. -/
def dget : List (String × PyVal) → String → Option PyVal
  | [], _ => none
  | (k', v) :: rest, k => if k' = k then some v else dget rest k

/-- Python dict assignment d[k] = v: an existing key keeps its position and
gets the new value; a new key is appended at the end. -/
def dset : List (String × PyVal) → String → PyVal → List (String × PyVal)
  | [], k, v => [(k, v)]
  | (k', v') :: rest, k, v =>
      if k' = k then (k, v) :: rest else (k', v') :: dset rest k v

/-- Python dict deletion del d[k]: removes the entry with the given key. -/
def ddel : List (String × PyVal) → String → List (String × PyVal)
  | [], _ => []
  | (k', v') :: rest, k => if k' = k then rest else (k', v') :: ddel rest k

/-- Character-level worker for Python str.split(sep): splits on every
occurrence of the separator, keeping empty pieces (so the result is never
empty and splitting the empty string yields one empty piece). -/
def splitChars (sep : Char) : List Char → List (List Char)
  | [] => [[]]
  | c :: cs =>
      match splitChars sep cs with
      | [] => [[]]
      | g :: gs => if c = sep then [] :: g :: gs else (c :: g) :: gs

/-- Python str.split(sep) for a single-character separator. -/
def pySplit (s : String) (sep : Char) : List String :=
  (splitChars sep s.toList).map String.mk

/-- Python membership test sep in s for a single character. -/
def pyContains (s : String) (c : Char) : Bool :=
  s.toList.contains c

/-- Walk of NitroDataStore.get: starting from a value, follow the path one
segment at a time; a segment whose current value is not a dict containing it
short-circuits to not-found. -/
def getWalk : PyVal → List String → Option PyVal
  | v, [] => some v
  | PyVal.vdict d, k :: ks =>
      match dget d k with
      | some v => getWalk v ks
      | none => none
  | _, _ :: _ => none

/-- Intermediate-step resolution used by NitroDataStore.set while
navigating: an existing dict at the key is reused, a missing or non-dict
value is replaced with a fresh empty dict. -/
def subDict (d : List (String × PyVal)) (k : String) : List (String × PyVal) :=
  match dget d k with
  | some (PyVal.vdict m) => m
  | _ => []

/-- Recursive core of NitroDataStore.set: navigates to the parent of the
final key, creating a fresh empty dict for every missing intermediate and
replacing any non-dict intermediate with a fresh empty dict, then assigns
the final key. -/
def setPath (d : List (String × PyVal)) : List String → PyVal → List (String × PyVal)
  | [], _ => d
  | [k], v => dset d k v
  | k :: k2 :: ks, v => dset d k (PyVal.vdict (setPath (subDict d k) (k2 :: ks) v))

/-- Recursive core of NitroDataStore.delete: navigates through nested dicts
to the parent of the final key and deletes it there, reporting whether a
deletion happened; any missing or non-dict step on the way reports false. -/
def delPath : List (String × PyVal) → List String → List (String × PyVal) × Bool
  | d, [] => (d, false)
  | d, [k] => if (dget d k).isSome then (ddel d k, true) else (d, false)
  | d, k :: k2 :: ks =>
      match dget d k with
      | some (PyVal.vdict sub) =>
          let r := delPath sub (k2 :: ks)
          (dset d k (PyVal.vdict r.1), r.2)
      | _ => (d, false)

namespace NitroDataStore

/-- NitroDataStore.get (datastore.py lines 94-123): a key with no separator
is a direct top-level lookup with default; otherwise the dot-separated path
is walked through nested dicts, returning the default when blocked. -/
def get (data : List (String × PyVal)) (key : String) (default : PyVal) : PyVal :=
  if pyContains key '.' then (getWalk (PyVal.vdict data) (pySplit key '.')).getD default
  else (dget data key).getD default

/-- NitroDataStore.has (datastore.py lines 197-218): true iff the
dot-separated path resolves. -/
def has (data : List (String × PyVal)) (key : String) : Bool :=
  if pyContains key '.' then (getWalk (PyVal.vdict data) (pySplit key '.')).isSome
  else (dget data key).isSome

/-- NitroDataStore.set (datastore.py lines 125-157): a key with no separator
assigns at top level; otherwise nested dicts are created (or non-dict
intermediates replaced) along the path and the final key is assigned. -/
def set (data : List (String × PyVal)) (key : String) (v : PyVal) : List (String × PyVal) :=
  if pyContains key '.' then setPath data (pySplit key '.') v
  else dset data key v

/-- NitroDataStore.delete (datastore.py lines 159-195): deletes the value at
the dot-separated path, returning the new store contents paired with True
iff the key existed and was deleted. -/
def delete (data : List (String × PyVal)) (key : String) : List (String × PyVal) × Bool :=
  if pyContains key '.' then delPath data (pySplit key '.')
  else if (dget data key).isSome then (ddel data key, true) else (data, false)

end NitroDataStore

/-- Well-formedness of a PyVal as produced by Python: every dict reachable
inside it has pairwise-distinct keys (Python dicts cannot hold a key twice). -/
inductive PyVal.WF : PyVal → Prop
  | vstr (s : String) : PyVal.WF (PyVal.vstr s)
  | vint (n : Int) : PyVal.WF (PyVal.vint n)
  | vbool (b : Bool) : PyVal.WF (PyVal.vbool b)
  | vnone : PyVal.WF PyVal.vnone
  | vlist (xs : List PyVal) : (∀ v ∈ xs, PyVal.WF v) → PyVal.WF (PyVal.vlist xs)
  | vdict (entries : List (String × PyVal)) :
      (entries.map Prod.fst).Nodup →
      (∀ e ∈ entries, PyVal.WF e.2) →
      PyVal.WF (PyVal.vdict entries)

theorem dget_dset_self (d : List (String × PyVal)) (k : String) (v : PyVal) :
    dget (dset d k v) k = some v := by
  induction d with
  | nil => simp [dget, dset]
  | cons e rest ih =>
      obtain ⟨k', v'⟩ := e
      by_cases h : k' = k
      · simp [dget, dset, h]
      · simp [dget, dset, h, ih]

theorem dget_dset_ne (d : List (String × PyVal)) (k k' : String) (v : PyVal)
    (h : k' ≠ k) : dget (dset d k v) k' = dget d k' := by
  induction d with
  | nil => simp [dget, dset, Ne.symm h]
  | cons e rest ih =>
      obtain ⟨k0, v0⟩ := e
      by_cases h0 : k0 = k
      · subst h0
        simp [dget, dset, Ne.symm h, h]
      · simp [dget, dset, h0, ih]

theorem dget_eq_none_of_not_mem (d : List (String × PyVal)) (k : String)
    (h : k ∉ d.map Prod.fst) : dget d k = none := by
  induction d with
  | nil => simp [dget]
  | cons e rest ih =>
      obtain ⟨k', v'⟩ := e
      simp only [List.map_cons, List.mem_cons] at h
      push_neg at h
      simp [dget, Ne.symm h.1, ih h.2]

theorem keys_dset (d : List (String × PyVal)) (k : String) (v : PyVal) :
    (dset d k v).map Prod.fst = if k ∈ d.map Prod.fst then d.map Prod.fst
      else d.map Prod.fst ++ [k] := by
  induction d with
  | nil => simp [dset]
  | cons e rest ih =>
      obtain ⟨k', v'⟩ := e
      by_cases h : k' = k
      · simp [dset, h]
      · by_cases h2 : k ∈ rest.map Prod.fst
        · simp [dset, h, ih, h2, Ne.symm h]
        · simp [dset, h, ih, h2, Ne.symm h]

theorem nodup_keys_dset (d : List (String × PyVal)) (k : String) (v : PyVal)
    (h : (d.map Prod.fst).Nodup) : ((dset d k v).map Prod.fst).Nodup := by
  rw [keys_dset]
  by_cases hm : k ∈ d.map Prod.fst
  · simpa [hm] using h
  · rw [if_neg hm]
    refine List.Nodup.append h (List.nodup_singleton k) ?_
    intro a ha hb
    simp only [List.mem_singleton] at hb
    exact hm (hb ▸ ha)

theorem dget_ddel_self (d : List (String × PyVal)) (k : String)
    (h : (d.map Prod.fst).Nodup) : dget (ddel d k) k = none := by
  induction d with
  | nil => simp [dget, ddel]
  | cons e rest ih =>
      obtain ⟨k', v'⟩ := e
      simp only [List.map_cons, List.nodup_cons] at h
      by_cases hk : k' = k
      · subst hk
        simpa [ddel] using dget_eq_none_of_not_mem rest k' h.1
      · simp [dget, ddel, hk, ih h.2]

theorem splitChars_ne_nil (sep : Char) (l : List Char) : splitChars sep l ≠ [] := by
  induction l with
  | nil => simp [splitChars]
  | cons c cs ih =>
      unfold splitChars
      cases h : splitChars sep cs with
      | nil => simp
      | cons g gs =>
          by_cases hc : c = sep <;> simp [hc]

theorem splitChars_of_not_mem (sep : Char) (l : List Char) (h : sep ∉ l) :
    splitChars sep l = [l] := by
  induction l with
  | nil => simp [splitChars]
  | cons c cs ih =>
      simp only [List.mem_cons] at h
      push_neg at h
      unfold splitChars
      rw [ih h.2]
      simp [Ne.symm h.1]

theorem pySplit_ne_nil (s : String) (sep : Char) : pySplit s sep ≠ [] := by
  unfold pySplit
  simpa using splitChars_ne_nil sep s.toList

theorem pySplit_of_not_contains (s : String) (sep : Char)
    (h : pyContains s sep = false) : pySplit s sep = [s] := by
  unfold pyContains at h
  unfold pySplit
  rw [splitChars_of_not_mem sep s.toList (by simpa using h)]
  rfl

/-- A scalar in the sense of the specification: neither a map nor a
sequence. -/
def PyVal.isScalar : PyVal → Bool
  | PyVal.vdict _ => false
  | PyVal.vlist _ => false
  | _ => true

theorem dget_mem (d : List (String × PyVal)) (k : String) (w : PyVal)
    (h : dget d k = some w) : (k, w) ∈ d := by
  induction d with
  | nil => simp [dget] at h
  | cons e rest ih =>
      obtain ⟨k', v'⟩ := e
      by_cases hk : k' = k
      · subst hk
        simp only [dget, if_true, eq_self_iff_true, Option.some.injEq] at h
        subst h
        exact List.mem_cons_self _ _
      · simp only [dget, if_neg hk] at h
        exact List.mem_cons_of_mem _ (ih h)

theorem PyVal.WF.dict_nodup {d : List (String × PyVal)}
    (h : PyVal.WF (PyVal.vdict d)) : (d.map Prod.fst).Nodup := by
  cases h with
  | vdict _ hn _ => exact hn

theorem PyVal.WF.dict_dget {d : List (String × PyVal)} {k : String} {w : PyVal}
    (h : PyVal.WF (PyVal.vdict d)) (hg : dget d k = some w) : PyVal.WF w := by
  cases h with
  | vdict _ _ hm => exact hm _ (dget_mem d k w hg)

theorem getWalk_single (d : List (String × PyVal)) (k : String) :
    getWalk (PyVal.vdict d) [k] = dget d k := by
  cases h : dget d k <;> simp [getWalk, h]

/-- Round trip along an explicit nonempty segment path: after a set, the
path resolves to the value; a delete succeeds, after which the path no
longer resolves and a second delete fails. -/
theorem roundTrip_path (v : PyVal) :
    ∀ (ks : List String) (d : List (String × PyVal)),
    ks ≠ [] → PyVal.WF (PyVal.vdict d) →
    getWalk (PyVal.vdict (setPath d ks v)) ks = some v ∧
    (delPath (setPath d ks v) ks).2 = true ∧
    getWalk (PyVal.vdict (delPath (setPath d ks v) ks).1) ks = none ∧
    (delPath (delPath (setPath d ks v) ks).1 ks).2 = false := by
  intro ks
  induction ks with
  | nil => intro d h _; exact absurd rfl h
  | cons k rest ih =>
      intro d _ hwf
      cases rest with
      | nil =>
          have hnd : ((dset d k v).map Prod.fst).Nodup :=
            nodup_keys_dset d k v hwf.dict_nodup
          refine ⟨?_, ?_, ?_, ?_⟩
          · simp [setPath, getWalk_single, dget_dset_self]
          · simp [setPath, delPath, dget_dset_self]
          · simp [setPath, delPath, dget_dset_self, getWalk_single,
              dget_ddel_self _ _ hnd]
          · simp [setPath, delPath, dget_dset_self, dget_ddel_self _ _ hnd]
      | cons k2 ks2 =>
          have hsub : PyVal.WF (PyVal.vdict (subDict d k)) := by
            unfold subDict
            cases hg : dget d k with
            | none => exact PyVal.WF.vdict [] (by simp) (by simp)
            | some w =>
                cases w with
                | vdict m => simpa using hwf.dict_dget hg
                | vstr s => exact PyVal.WF.vdict [] (by simp) (by simp)
                | vint n => exact PyVal.WF.vdict [] (by simp) (by simp)
                | vbool b => exact PyVal.WF.vdict [] (by simp) (by simp)
                | vnone => exact PyVal.WF.vdict [] (by simp) (by simp)
                | vlist xs => exact PyVal.WF.vdict [] (by simp) (by simp)
          obtain ⟨ih1, ih2, ih3, ih4⟩ := ih (subDict d k) (by simp) hsub
          simp only [getWalk] at ih1 ih3
          refine ⟨?_, ?_, ?_, ?_⟩
          · simp [setPath, getWalk, dget_dset_self, ih1]
          · simp [setPath, delPath, dget_dset_self, ih2]
          · simp [setPath, delPath, dget_dset_self, getWalk, ih3]
          · simp [setPath, delPath, dget_dset_self, ih4]

theorem get_eq_path (data : List (String × PyVal)) (key : String) (default : PyVal) :
    NitroDataStore.get data key default =
      (getWalk (PyVal.vdict data) (pySplit key '.')).getD default := by
  unfold NitroDataStore.get
  by_cases h : pyContains key '.'
  · rw [if_pos h]
  · rw [if_neg h, pySplit_of_not_contains key '.' (by simpa using h), getWalk_single]

theorem has_eq_path (data : List (String × PyVal)) (key : String) :
    NitroDataStore.has data key =
      (getWalk (PyVal.vdict data) (pySplit key '.')).isSome := by
  unfold NitroDataStore.has
  by_cases h : pyContains key '.'
  · rw [if_pos h]
  · rw [if_neg h, pySplit_of_not_contains key '.' (by simpa using h), getWalk_single]

theorem set_eq_path (data : List (String × PyVal)) (key : String) (v : PyVal) :
    NitroDataStore.set data key v = setPath data (pySplit key '.') v := by
  unfold NitroDataStore.set
  by_cases h : pyContains key '.'
  · rw [if_pos h]
  · rw [if_neg h, pySplit_of_not_contains key '.' (by simpa using h)]
    rfl

theorem delete_eq_path (data : List (String × PyVal)) (key : String) :
    NitroDataStore.delete data key = delPath data (pySplit key '.') := by
  unfold NitroDataStore.delete
  by_cases h : pyContains key '.'
  · rw [if_pos h]
  · rw [if_neg h, pySplit_of_not_contains key '.' (by simpa using h)]
    simp [delPath]

/-- Claim C5: on any well-formed data store, for a dot-separated key path
none of whose proper prefixes resolves to a pre-existing scalar, set then
get returns the value and has is true; a delete then makes has false and
returns true, and a second delete returns false. -/
theorem c5_set_get_delete_roundtrip
    (data : List (String × PyVal)) (key : String) (v default : PyVal)
    (hwf : PyVal.WF (PyVal.vdict data))
    (_hpre : ∀ i, 0 < i → i < (pySplit key '.').length →
      ∀ w, getWalk (PyVal.vdict data) ((pySplit key '.').take i) = some w →
        w.isScalar = false) :
    NitroDataStore.get (NitroDataStore.set data key v) key default = v ∧
    NitroDataStore.has (NitroDataStore.set data key v) key = true ∧
    (NitroDataStore.delete (NitroDataStore.set data key v) key).2 = true ∧
    NitroDataStore.has (NitroDataStore.delete (NitroDataStore.set data key v) key).1 key
      = false ∧
    (NitroDataStore.delete
      (NitroDataStore.delete (NitroDataStore.set data key v) key).1 key).2 = false := by
  obtain ⟨h1, h2, h3, h4⟩ :=
    roundTrip_path v (pySplit key '.') data (pySplit_ne_nil key '.') hwf
  simp only [set_eq_path, get_eq_path, has_eq_path, delete_eq_path]
  exact ⟨by rw [h1]; rfl, by rw [h1]; rfl, h2, by rw [h3]; rfl, h4⟩

/-- Witness for C5: a concrete run on an empty store with path site.name. -/
theorem c5_witness :
    NitroDataStore.get (NitroDataStore.set [] "site.name" (PyVal.vstr "My Site"))
      "site.name" PyVal.vnone = PyVal.vstr "My Site" ∧
    (NitroDataStore.delete (NitroDataStore.set [] "site.name" (PyVal.vstr "My Site"))
      "site.name").2 = true := by
  have hps : pySplit "site.name" '.' = ["site", "name"] := rfl
  obtain ⟨h1, _, h3, _, _⟩ :=
    c5_set_get_delete_roundtrip [] "site.name" (PyVal.vstr "My Site") PyVal.vnone
      (PyVal.WF.vdict [] (by simp) (by simp))
      (by
        rw [hps]
        intro i hi hlen w hw
        simp only [List.length_cons, List.length_nil] at hlen
        have hi1 : i = 1 := by omega
        subst hi1
        simp [getWalk, dget] at hw)
  exact ⟨h1, h3⟩

mutual

/-- Per-key combination step of NitroDataStore._deep_merge (datastore.py
lines 872-892): when the base holds a dict at the key and the overlay value
is a dict, the merge recurses; in every other case the overlay value wins
outright. -/
def mergeOne : Option PyVal → PyVal → PyVal
  | some (PyVal.vdict bm), PyVal.vdict om => PyVal.vdict (deepMerge bm om)
  | _, v => v

/-- NitroDataStore._deep_merge: folds every overlay entry onto a copy of the
base dict, combining each key with mergeOne. -/
def deepMerge : List (String × PyVal) → List (String × PyVal) → List (String × PyVal)
  | base, [] => base
  | base, (k, v) :: rest => deepMerge (dset base k (mergeOne (dget base k) v)) rest

end

theorem deepMerge_dget (overlay : List (String × PyVal)) :
    ∀ (base : List (String × PyVal)), (overlay.map Prod.fst).Nodup → ∀ (k : String),
    dget (deepMerge base overlay) k =
      (match dget overlay k with
       | none => dget base k
       | some ov => some (mergeOne (dget base k) ov)) := by
  induction overlay with
  | nil => intro base _ k; simp [deepMerge, dget]
  | cons e rest ih =>
      obtain ⟨k', v⟩ := e
      intro base hnd k
      simp only [List.map_cons, List.nodup_cons] at hnd
      rw [deepMerge, ih _ hnd.2 k]
      by_cases hk : k = k'
      · subst hk
        have hrest : dget rest k = none :=
          dget_eq_none_of_not_mem rest k hnd.1
        simp [hrest, dget, dget_dset_self]
      · simp [dget, Ne.symm hk, dget_dset_ne _ _ _ _ hk]

theorem mergeOne_not_both_dict (o : Option PyVal) (v : PyVal)
    (h : ∀ bm om, ¬(o = some (PyVal.vdict bm) ∧ v = PyVal.vdict om)) :
    mergeOne o v = v := by
  cases o with
  | none => cases v <;> simp [mergeOne]
  | some w =>
      cases w with
      | vdict bm =>
          cases v with
          | vdict om => exact absurd ⟨rfl, rfl⟩ (h bm om)
          | vstr s => simp [mergeOne]
          | vint n => simp [mergeOne]
          | vbool b => simp [mergeOne]
          | vnone => simp [mergeOne]
          | vlist xs => simp [mergeOne]
      | vstr s => cases v <;> simp [mergeOne]
      | vint n => cases v <;> simp [mergeOne]
      | vbool b => cases v <;> simp [mergeOne]
      | vnone => cases v <;> simp [mergeOne]
      | vlist xs => cases v <;> simp [mergeOne]

/-- Claim C6: deep merge combines two maps key-by-key; when both sides hold
a map at a key the merge recurses; in every other conflict the
overlay value replaces the base value outright, and in particular two
sequences at the same key are never concatenated — the overlay sequence
replaces the base sequence wholesale. -/
theorem c6_deep_merge_characterization
    (base overlay : List (String × PyVal))
    (hnd : (overlay.map Prod.fst).Nodup) (k : String) :
    dget (deepMerge base overlay) k =
      (match dget overlay k with
       | none => dget base k
       | some ov => some (mergeOne (dget base k) ov)) ∧
    (∀ bm om, dget base k = some (PyVal.vdict bm) →
      dget overlay k = some (PyVal.vdict om) →
      dget (deepMerge base overlay) k = some (PyVal.vdict (deepMerge bm om))) ∧
    (∀ ov, dget overlay k = some ov →
      (∀ bm om, ¬(dget base k = some (PyVal.vdict bm) ∧ ov = PyVal.vdict om)) →
      dget (deepMerge base overlay) k = some ov) ∧
    (∀ xs ys, dget base k = some (PyVal.vlist xs) →
      dget overlay k = some (PyVal.vlist ys) →
      dget (deepMerge base overlay) k = some (PyVal.vlist ys)) := by
  have hmain := deepMerge_dget overlay base hnd k
  refine ⟨hmain, ?_, ?_, ?_⟩
  · intro bm om hb ho
    rw [hmain, ho, hb]
    simp [mergeOne]
  · intro ov ho hnb
    rw [hmain, ho]
    exact congrArg some (mergeOne_not_both_dict _ _ hnb)
  · intro xs ys hb ho
    rw [hmain, ho, hb]
    simp [mergeOne]

/-- Witness for C6: merging two concrete stores; the nested map merges
key-by-key while the list at tags is replaced wholesale. -/
theorem c6_witness :
    dget
      (deepMerge
        [("site", PyVal.vdict [("name", PyVal.vstr "A"), ("url", PyVal.vstr "a.com")]),
         ("tags", PyVal.vlist [PyVal.vstr "a", PyVal.vstr "b"])]
        [("site", PyVal.vdict [("name", PyVal.vstr "B")]),
         ("tags", PyVal.vlist [PyVal.vstr "c", PyVal.vstr "d"])])
      "tags" = some (PyVal.vlist [PyVal.vstr "c", PyVal.vstr "d"]) := by
  have h :=
    (c6_deep_merge_characterization
      [("site", PyVal.vdict [("name", PyVal.vstr "A"), ("url", PyVal.vstr "a.com")]),
       ("tags", PyVal.vlist [PyVal.vstr "a", PyVal.vstr "b"])]
      [("site", PyVal.vdict [("name", PyVal.vstr "B")]),
       ("tags", PyVal.vlist [PyVal.vstr "c", PyVal.vstr "d"])]
      (by simp) "tags").2.2.2
  exact h [PyVal.vstr "a", PyVal.vstr "b"] [PyVal.vstr "c", PyVal.vstr "d"] rfl rfl

/-- NitroDataStore.query (datastore.py lines 653-668): resolves the path via
get (with default None) and starts a query over the resulting sequence; a
result that is not a sequence yields a query over the empty sequence. -/
def NitroDataStore.query (data : List (String × PyVal)) (path : String) : List PyVal :=
  match NitroDataStore.get data path PyVal.vnone with
  | PyVal.vlist xs => xs
  | _ => []

/-- Modelled from the spec: the QueryBuilder class is imported by
NitroDataStore.query from a query_builder module that is not part of the
available sources; section 4.4 of the specification describes it as a fluent
builder over a sequence of entries.  whereQ is its where(predicate): filters
the current sequence by the predicate. -/
def whereQ (entries : List PyVal) (p : PyVal → Bool) : List PyVal :=
  entries.filter p

/-- Modelled from the spec: QueryBuilder.sort(key, reverse) with a
key-function — a stable sort, descending when reverse is true (Python
list.sort keeps the original relative order of elements with equal keys
even for reverse=True, which a merge sort with the flipped comparison
reproduces). -/
def sortQ (entries : List PyVal) (key : PyVal → Int) (reverse : Bool) : List PyVal :=
  if reverse then entries.mergeSort (fun a b => decide (key b ≤ key a))
  else entries.mergeSort (fun a b => decide (key a ≤ key b))

/-- Modelled from the spec: sorting by a field name reads the field of each
map-shaped entry via its get; entries are compared by the integer value
stored there (0 when absent or not an integer). -/
def fieldInt (field : String) (e : PyVal) : Int :=
  match e with
  | PyVal.vdict d =>
      match dget d field with
      | some (PyVal.vint n) => n
      | _ => 0
  | _ => 0

/-- Modelled from the spec: QueryBuilder.limit(n) keeps the first n entries
of the current sequence. -/
def limitQ (entries : List PyVal) (n : Nat) : List PyVal :=
  entries.take n

/-- Modelled from the spec: QueryBuilder.execute() materializes the current
sequence. -/
def executeQ (entries : List PyVal) : List PyVal :=
  entries

/-- Claim C2: query(path) starts a query over the sequence resolved at the
path (the empty sequence when the resolved value is not a sequence), and
chaining where, sort (by an integer field, reversed), limit and execute
returns only entries of the resolved sequence that satisfy the predicate,
in descending field order, truncated to the limit. -/
theorem c2_query_builder_chain (data : List (String × PyVal)) (path : String)
    (p : PyVal → Bool) (field : String) (n : Nat) :
    (∀ e ∈ executeQ (limitQ (sortQ (whereQ (NitroDataStore.query data path) p)
        (fieldInt field) true) n),
      p e = true ∧ e ∈ NitroDataStore.query data path) ∧
    (executeQ (limitQ (sortQ (whereQ (NitroDataStore.query data path) p)
        (fieldInt field) true) n)).length
      = min n (whereQ (NitroDataStore.query data path) p).length ∧
    List.Pairwise (fun a b => fieldInt field b ≤ fieldInt field a)
      (executeQ (limitQ (sortQ (whereQ (NitroDataStore.query data path) p)
        (fieldInt field) true) n)) ∧
    ((∀ ys, NitroDataStore.get data path PyVal.vnone ≠ PyVal.vlist ys) →
      NitroDataStore.query data path = []) := by
  have hperm : List.Perm
      ((whereQ (NitroDataStore.query data path) p).mergeSort
        (fun a b => decide (fieldInt field b ≤ fieldInt field a)))
      (whereQ (NitroDataStore.query data path) p) :=
    List.mergeSort_perm _ _
  refine ⟨?_, ?_, ?_, ?_⟩
  · intro e he
    simp only [executeQ, limitQ, sortQ, if_pos] at he
    have he2 := hperm.mem_iff.1 (List.mem_of_mem_take he)
    simp only [whereQ, List.mem_filter] at he2
    exact ⟨he2.2, he2.1⟩
  · simp only [executeQ, limitQ, sortQ, if_pos, List.length_take, hperm.length_eq]
  · have hs : List.Pairwise
        (fun a b => decide (fieldInt field b ≤ fieldInt field a) = true)
        ((whereQ (NitroDataStore.query data path) p).mergeSort
          (fun a b => decide (fieldInt field b ≤ fieldInt field a))) := by
      apply List.sorted_mergeSort
      · intro a b cc hab hbc
        simp only [decide_eq_true_eq] at hab hbc ⊢
        exact le_trans hbc hab
      · intro a b
        simp only [Bool.or_eq_true, decide_eq_true_eq]
        exact le_total (fieldInt field b) (fieldInt field a)
    have hs2 : List.Pairwise (fun a b => fieldInt field b ≤ fieldInt field a)
        ((whereQ (NitroDataStore.query data path) p).mergeSort
          (fun a b => decide (fieldInt field b ≤ fieldInt field a))) :=
      hs.imp (fun hab => by simpa using hab)
    simpa only [executeQ, limitQ, sortQ, if_pos] using
      hs2.sublist (List.take_sublist _ _)
  · intro hnl
    unfold NitroDataStore.query
    cases hv : NitroDataStore.get data path PyVal.vnone with
    | vlist xs => exact absurd hv (hnl xs)
    | vstr s => rfl
    | vint n => rfl
    | vbool b => rfl
    | vnone => rfl
    | vdict d => rfl

/-- Python str.rstrip with a slash argument: removes every trailing slash. -/
def rstripSlash (s : String) : String :=
  String.mk ((s.toList.reverse.dropWhile (fun c => c = '/')).reverse)

/-- Python single-character str.replace of backslash by slash, as used on
relative paths in generate_sitemap. -/
def backslashToSlash (s : String) : String :=
  String.mk (s.toList.map (fun c => if c = '\\' then '/' else c))

/-- Python str.endswith for the fixed suffixes used here. -/
def pyEndsWith (s suf : String) : Bool :=
  suf.toList.isSuffixOf s.toList

/-- Python slicing s[:-n]: drops the final n characters. -/
def pyDropRight (s : String) (n : Nat) : String :=
  String.mk (s.toList.take (s.toList.length - n))

/-- Bundler.generate_sitemap URL-path normalization (bundler.py lines
129-138): backslashes become slashes, a bare index.html maps to the empty
path, and a trailing /index.html (11 characters) is stripped. -/
def sitemapUrlPath (relPath : String) : String :=
  let p := backslashToSlash relPath
  if p = "index.html" then ""
  else if pyEndsWith p "/index.html" then pyDropRight p 11
  else p

/-- One sitemap url entry (bundler.py lines 146-153). -/
structure SitemapUrl where
  loc : String
  lastmod : String
  changefreq : String
  priority : String
deriving Repr, DecidableEq

/-- Bundler.generate_sitemap (bundler.py lines 115-173) restricted to the
entry list it writes: one url entry per html file, whose location is the
rstripped base url, a slash, and the normalized relative path; changefreq is
always weekly and the priority is 1.0 for the empty (site-root) path and 0.8
otherwise.  Each input file is given with the lastmod date string that the
source derives from the file modification time. -/
def generate_sitemap (baseUrl : String) (htmlFiles : List (String × String)) :
    List SitemapUrl :=
  htmlFiles.map (fun f =>
    { loc := rstripSlash baseUrl ++ "/" ++ sitemapUrlPath f.1
      lastmod := f.2
      changefreq := "weekly"
      priority := if sitemapUrlPath f.1 = "" then "1.0" else "0.8" })

/-- Counterexample to claim C3 as stated: for a build containing index.html
and blog/index.html, the code emits the location base_url/blog with no
trailing slash, not base_url/blog/ as the claim asserts. -/
theorem c3_counterexample :
    (generate_sitemap "https://example.com"
        [("index.html", "2024-01-01"), ("blog/index.html", "2024-01-01")]).map
      SitemapUrl.loc
      ≠ ["https://example.com/", "https://example.com/blog/"] := by
  decide

/-- Claim C3 (amended): for a build containing index.html and
blog/index.html, generate_sitemap emits one url entry per file, with
locations base_url/ and base_url/blog (the root keeps a trailing slash, a
stripped /index.html path does not), neither ending in index.html, with
priority 1.0 for the site root entry and 0.8 for the other. -/
theorem c3_sitemap_entries :
    (generate_sitemap "https://example.com"
        [("index.html", "2024-01-01"), ("blog/index.html", "2024-01-01")]).map
      SitemapUrl.loc
      = ["https://example.com/", "https://example.com/blog"] ∧
    (∀ u ∈ generate_sitemap "https://example.com"
        [("index.html", "2024-01-01"), ("blog/index.html", "2024-01-01")],
      pyEndsWith u.loc "index.html" = false) ∧
    (generate_sitemap "https://example.com"
        [("index.html", "2024-01-01"), ("blog/index.html", "2024-01-01")]).map
      SitemapUrl.priority = ["1.0", "0.8"] := by
  refine ⟨by decide, ?_, by decide⟩
  decide

/-- Result type of the configuration loader model: the loaded configuration
fields of config.py with their constructor defaults. -/
structure ConfigData where
  site_name : String := "My Site (built with nitro.sh)"
  base_url : String := "http://localhost:8008"
  build_dir : String := "build"
  source_dir : String := "src"
deriving Repr, DecidableEq

/-- A value bound by the executed configuration script: either an actual
Config object or a value of some other Python type, recorded by its type
name. -/
inductive PyConfigObj where
  | configObj (c : ConfigData)
  | otherObj (typeName : String)
deriving Repr, DecidableEq

/-- Outcome of executing the configuration script in an isolated module
namespace: a syntax fault with message and line number, any other execution
fault with its message, or success with the module variable bindings. -/
inductive ExecOutcome where
  | syntaxFault (msg : String) (lineno : Nat)
  | otherFault (msg : String)
  | bindings (env : List (String × PyConfigObj))
deriving Repr, DecidableEq

/-- Errors raised by load_config: the re-raised SyntaxError carrying message
and line, the ValueError naming the actual type of a non-Config binding, and
the wrapping ValueError for any other execution fault. -/
inductive ConfigLoadError where
  | syntaxError (msg : String) (lineno : Nat)
  | typeError (typeName : String)
  | loadError (msg : String)
deriving Repr, DecidableEq

/-- load_config (config.py lines 95-146): a missing file yields a default
Config; a script whose execution raises a syntax fault re-raises it with
message and line; any other execution fault is wrapped into a load error; a
successful execution returns the bound config variable if it is a Config,
raises a type error naming the actual type if it is bound to anything else,
and yields a default Config when no config variable is bound.  The input is
none when the configuration file does not exist, otherwise the outcome of
executing it. -/
def load_config (file : Option ExecOutcome) : Except ConfigLoadError ConfigData :=
  match file with
  | none => Except.ok {}
  | some (ExecOutcome.syntaxFault msg line) =>
      Except.error (ConfigLoadError.syntaxError msg line)
  | some (ExecOutcome.otherFault msg) =>
      Except.error (ConfigLoadError.loadError msg)
  | some (ExecOutcome.bindings env) =>
      match List.lookup "config" env with
      | some (PyConfigObj.configObj c) => Except.ok c
      | some (PyConfigObj.otherObj t) => Except.error (ConfigLoadError.typeError t)
      | none => Except.ok {}

/-- Claim C7: load_config returns a default Configuration exactly when the
file is absent or binds no variable named config; a binding of the wrong
type fails with a configuration-type error naming the actual type found; a
syntax fault fails with a configuration-syntax error carrying message and
line number; any other execution fault fails with a load error; and a bound
Config value is returned as is — a default is never silently used for a
present-but-invalid configuration. -/
theorem c7_load_config_cases :
    (load_config none = Except.ok {}) ∧
    (∀ env, List.lookup "config" env = none →
      load_config (some (ExecOutcome.bindings env)) = Except.ok {}) ∧
    (∀ env t, List.lookup "config" env = some (PyConfigObj.otherObj t) →
      load_config (some (ExecOutcome.bindings env))
        = Except.error (ConfigLoadError.typeError t)) ∧
    (∀ msg line, load_config (some (ExecOutcome.syntaxFault msg line))
      = Except.error (ConfigLoadError.syntaxError msg line)) ∧
    (∀ msg, load_config (some (ExecOutcome.otherFault msg))
      = Except.error (ConfigLoadError.loadError msg)) ∧
    (∀ env c, List.lookup "config" env = some (PyConfigObj.configObj c) →
      load_config (some (ExecOutcome.bindings env)) = Except.ok c) := by
  refine ⟨rfl, ?_, ?_, ?_, ?_, ?_⟩
  · intro env h
    simp [load_config, h]
  · intro env t h
    simp [load_config, h]
  · intro msg line
    rfl
  · intro msg
    rfl
  · intro env c h
    simp [load_config, h]

/-- Witness for C7: a script binding config to a dict fails with a type
error naming dict; a script binding nothing yields the default. -/
theorem c7_witness :
    load_config (some (ExecOutcome.bindings [("config", PyConfigObj.otherObj "dict")]))
      = Except.error (ConfigLoadError.typeError "dict") ∧
    load_config (some (ExecOutcome.bindings [("x", PyConfigObj.otherObj "int")]))
      = Except.ok {} :=
  ⟨c7_load_config_cases.2.2.1 [("config", PyConfigObj.otherObj "dict")] "dict" rfl,
   c7_load_config_cases.2.1 [("x", PyConfigObj.otherObj "int")] rfl⟩

/-- Generic Python dict assignment for non-PyVal value types (used for the
watcher last_modified map of path to time). -/
def aset {α : Type} : List (String × α) → String → α → List (String × α)
  | [], k, v => [(k, v)]
  | (k', v') :: rest, k, v =>
      if k' = k then (k, v) :: rest else (k', v') :: aset rest k v

/-- Prefix test on character lists (worker for substring containment). -/
def startsWithChars : List Char → List Char → Bool
  | [], _ => true
  | _ :: _, [] => false
  | p :: ps, c :: cs => (p = c) && startsWithChars ps cs

/-- Substring search on character lists: does the pattern occur anywhere. -/
def hasInfixChars (pat : List Char) : List Char → Bool
  | [] => startsWithChars pat []
  | c :: rest => startsWithChars pat (c :: rest) || hasInfixChars pat rest

/-- Python substring containment test, pattern in path. -/
def strContainsSub (s pat : String) : Bool :=
  hasInfixChars pat.toList s.toList

/-- Ignore substrings of NitroFileHandler._should_ignore (watcher.py lines
86-96). -/
def ignorePatterns : List String :=
  ["__pycache__", ".pyc", ".pyo", ".git", ".nitro", "build/", ".idea",
   ".vscode", ".DS_Store"]

/-- NitroFileHandler._should_ignore (watcher.py lines 77-103): the path is
ignored when any ignore pattern occurs as a substring of it. -/
def shouldIgnore (path : String) : Bool :=
  ignorePatterns.any (fun pat => strContainsSub path pat)

/-- Watcher handler state: the last_modified map of path to the time of the
last modification event that was reported (event times, produced by
time.time in the source, are modelled as exact rationals). -/
structure WatchState where
  lastModified : List (String × ℚ)
deriving Repr, DecidableEq

/-- NitroFileHandler.on_modified (watcher.py lines 35-59): directory events
and ignored paths are dropped; a modification whose distance to the recorded
last time for the exact same path (0 when none is recorded) is below the
0.5 second debounce window is dropped without touching the record; otherwise
the record is updated and the change callback is invoked.  Returns the new
state and whether the callback fired. -/
def onModified (st : WatchState) (isDir : Bool) (path : String) (t : ℚ) :
    WatchState × Bool :=
  if isDir then (st, false)
  else if shouldIgnore path then (st, false)
  else
    let last := (List.lookup path st.lastModified).getD 0
    if t - last < 1 / 2 then (st, false)
    else ({ lastModified := aset st.lastModified path t }, true)

/-- NitroFileHandler.on_created (watcher.py lines 61-75): directory events
and ignored paths are dropped; every other creation immediately invokes the
change callback, with no debounce bookkeeping at all. -/
def onCreated (st : WatchState) (isDir : Bool) (path : String) :
    WatchState × Bool :=
  if isDir then (st, false)
  else if shouldIgnore path then (st, false)
  else (st, true)

/-- A filesystem event as delivered to the handler. -/
inductive FsEvent where
  | modified (isDir : Bool) (path : String) (t : ℚ)
  | created (isDir : Bool) (path : String)
deriving Repr, DecidableEq

/-- Feeds a sequence of events through the handler, counting callback
invocations. -/
def processEvents (st : WatchState) : List FsEvent → WatchState × Nat
  | [] => (st, 0)
  | FsEvent.modified d p t :: rest =>
      let r := onModified st d p t
      let rres := processEvents r.1 rest
      (rres.1, (if r.2 then 1 else 0) + rres.2)
  | FsEvent.created d p :: rest =>
      let r := onCreated st d p
      let rres := processEvents r.1 rest
      (rres.1, (if r.2 then 1 else 0) + rres.2)

theorem onModified_fires (st : WatchState) (path : String) (t : ℚ)
    (hig : shouldIgnore path = false)
    (h : ¬(t - (List.lookup path st.lastModified).getD 0 < 1 / 2)) :
    onModified st false path t
      = ({ lastModified := aset st.lastModified path t }, true) := by
  unfold onModified
  rw [if_neg (by simp), if_neg (by simp [hig]), if_neg h]

theorem onModified_skips (st : WatchState) (path : String) (t : ℚ)
    (hig : shouldIgnore path = false)
    (h : t - (List.lookup path st.lastModified).getD 0 < 1 / 2) :
    onModified st false path t = (st, false) := by
  unfold onModified
  rw [if_neg (by simp), if_neg (by simp [hig]), if_pos h]

/-- Counterexample to claim C8 as stated: for a file path matched by the
watcher ignore rules (here one containing a bytecode-cache marker), two
modification events 0.2 seconds apart produce zero callback invocations,
not the exactly one the claim asserts for every file path. -/
theorem c8_counterexample :
    (processEvents ⟨[]⟩
      [FsEvent.modified false "src/__pycache__/mod.py" 1000,
       FsEvent.modified false "src/__pycache__/mod.py" (1000 + 1 / 5)]).2 = 0 := by
  have hig : shouldIgnore "src/__pycache__/mod.py" = true := by decide
  simp [processEvents, onModified, hig]

/-- Claim C8 (amended): for every file path not matched by the ignore rules,
starting from a fresh handler and event times at least one debounce window
after the epoch, two modification events on that exact path within 0.5
seconds of each other cause exactly one callback invocation, two events more
than 0.5 seconds apart cause two, and creation events are never debounced
(every non-ignored file creation fires regardless of handler state). -/
theorem c8_debounce (path : String) (t₁ t₂ : ℚ)
    (hig : shouldIgnore path = false) (h1 : 1 / 2 ≤ t₁) (_h12 : t₁ ≤ t₂) :
    ((t₂ - t₁ < 1 / 2) →
      (processEvents ⟨[]⟩
        [FsEvent.modified false path t₁, FsEvent.modified false path t₂]).2 = 1) ∧
    ((1 / 2 < t₂ - t₁) →
      (processEvents ⟨[]⟩
        [FsEvent.modified false path t₁, FsEvent.modified false path t₂]).2 = 2) ∧
    (∀ st : WatchState, (onCreated st false path).2 = true) := by
  have e1 : onModified ⟨[]⟩ false path t₁ = (⟨aset [] path t₁⟩, true) :=
    onModified_fires ⟨[]⟩ path t₁ hig
      (by simpa using not_lt.2 h1)
  have hlk2 : List.lookup path ((⟨aset [] path t₁⟩ : WatchState).lastModified)
      = some t₁ := by
    simp [aset, List.lookup]
  refine ⟨?_, ?_, ?_⟩
  · intro hlt
    have e2 : onModified ⟨aset [] path t₁⟩ false path t₂ = (⟨aset [] path t₁⟩, false) :=
      onModified_skips _ path t₂ hig (by rw [hlk2]; simpa using hlt)
    simp [processEvents, e1, e2]
  · intro hgt
    have e2 : onModified ⟨aset [] path t₁⟩ false path t₂
        = (⟨aset (aset [] path t₁) path t₂⟩, true) :=
      onModified_fires _ path t₂ hig
        (by rw [hlk2]; simpa using not_lt.2 (le_of_lt hgt))
    simp [processEvents, e1, e2]
  · intro st
    simp [onCreated, hig]

/-- Witness for C8: a concrete non-ignored page file with events 0.25
seconds apart fires exactly once. -/
theorem c8_witness :
    (processEvents ⟨[]⟩
      [FsEvent.modified false "src/pages/index.html.py" 1000,
       FsEvent.modified false "src/pages/index.html.py" (1000 + 1 / 4)]).2 = 1 :=
  (c8_debounce "src/pages/index.html.py" 1000 (1000 + 1 / 4)
    (by decide) (by norm_num) (by norm_num)).1 (by norm_num)

/-- Python pathlib basename (Path.name): the final slash-separated
component. -/
def basename (p : String) : String :=
  (pySplit p '/').getLastD ""

/-- Persistent cache state of BuildCache (cache.py): the pages, components
and data maps of project-relative path to stored content hash.  Hash values
are Option String because _get_file_hash returns None for an unreadable or
missing file; a dict .get of an absent key also yields None. -/
structure BuildCacheState where
  pages : List (String × Option String)
  components : List (String × Option String)
  dataFiles : List (String × Option String)
deriving Repr, DecidableEq

/-- Shared worker of BuildCache._update_component_hashes and
_update_data_hashes (cache.py lines 164-230) once the directory listing is
in hand: a category counts as changed when some current file hashes
differently from its cached entry (a missing cached entry included), or
some cached path no longer occurs in the current listing; the stored map is
replaced by the current one. -/
def updateHashesCore (cached current : List (String × Option String)) :
    Bool × List (String × Option String) :=
  (current.any (fun f => decide ((List.lookup f.1 cached).bind id ≠ f.2))
     || cached.any (fun c => (List.lookup c.1 current).isNone),
   current)

/-- BuildCache._update_component_hashes (cache.py lines 164-197): a missing
components directory reports no change and leaves the stored map untouched;
otherwise the rglob *.py listing (modelled as the input listing) minus any
file named __init__.py is compared and stored.  The directory listing is
given as path-hash pairs; none models a directory that does not exist. -/
def updateComponentHashes (cached : List (String × Option String))
    (dir : Option (List (String × Option String))) :
    Bool × List (String × Option String) :=
  match dir with
  | none => (false, cached)
  | some files =>
      updateHashesCore cached (files.filter (fun f => basename f.1 != "__init__.py"))

/-- BuildCache._update_data_hashes (cache.py lines 199-230): as for
components but over the data files whose suffix is .json, .yaml or .yml
(the suffix filtering of the rglob walk is reflected in the input
listing). -/
def updateDataHashes (cached : List (String × Option String))
    (dir : Option (List (String × Option String))) :
    Bool × List (String × Option String) :=
  match dir with
  | none => (false, cached)
  | some files => updateHashesCore cached files

/-- Per-page rebuild test of BuildCache.get_changed_pages (cache.py lines
142-160): the current page hash differs from the cached one, or the
component category changed, or the data category changed, or the page has no
cache entry at all. -/
def pageNeedsRebuild (cachePages : List (String × Option String))
    (compChanged dataChanged : Bool) (pg : String × Option String) : Bool :=
  decide (pg.2 ≠ (List.lookup pg.1 cachePages).bind id) || compChanged || dataChanged
    || (List.lookup pg.1 cachePages).isNone

/-- BuildCache.get_changed_pages (cache.py lines 119-162): first refreshes
the component and data hash maps, then selects every page that needs a
rebuild; returns the selected page paths and the updated cache state.
Pages are given as path-hash pairs with their current content hash. -/
def get_changed_pages (cache : BuildCacheState)
    (pages : List (String × Option String))
    (componentsDir dataDir : Option (List (String × Option String))) :
    List String × BuildCacheState :=
  let comp := updateComponentHashes cache.components componentsDir
  let dat := updateDataHashes cache.dataFiles dataDir
  ((pages.filter (pageNeedsRebuild cache.pages comp.1 dat.1)).map Prod.fst,
   { cache with components := comp.2, dataFiles := dat.2 })

/-- A tracked category (components or data) has a change with respect to a
current listing: some listed file is new or hashes differently, or some
tracked path is gone from the listing. -/
def trackedCategoryChanged (cached current : List (String × Option String)) : Prop :=
  (∃ f ∈ current, (List.lookup f.1 cached).bind id ≠ f.2) ∨
  (∃ c ∈ cached, List.lookup c.1 current = none)

/-- Follows the words of claim C4 (for comparison with the code): a tracked
component or data file was added, removed or changed — with a missing
directory read as every tracked file having been removed. -/
def claimCategoryChanged (cached : List (String × Option String))
    (dir : Option (List (String × Option String))) : Prop :=
  trackedCategoryChanged cached (dir.getD [])

instance (cached current : List (String × Option String)) :
    Decidable (trackedCategoryChanged cached current) := by
  unfold trackedCategoryChanged
  infer_instance

instance (cached : List (String × Option String))
    (dir : Option (List (String × Option String))) :
    Decidable (claimCategoryChanged cached dir) := by
  unfold claimCategoryChanged
  infer_instance

theorem mem_map_fst_of_mem_filter {β : Type} {c : (String × β) → Bool}
    {l : List (String × β)} {x : String}
    (h : x ∈ (l.filter c).map Prod.fst) : x ∈ l.map Prod.fst := by
  obtain ⟨e, he, hx⟩ := List.mem_map.1 h
  exact List.mem_map.2 ⟨e, List.mem_of_mem_filter he, hx⟩

theorem mem_map_fst_filter_iff {β : Type} (c : (String × β) → Bool) :
    ∀ (l : List (String × β)), (l.map Prod.fst).Nodup → ∀ pg ∈ l,
      (pg.1 ∈ (l.filter c).map Prod.fst ↔ c pg = true) := by
  intro l
  induction l with
  | nil => intro _ pg hpg; simp at hpg
  | cons q rest ih =>
      intro hnd pg hpg
      simp only [List.map_cons, List.nodup_cons] at hnd
      rcases List.mem_cons.1 hpg with rfl | hmem
      · cases hc : c pg with
        | true => simp [List.filter_cons, hc]
        | false =>
            simp only [List.filter_cons, hc, Bool.false_eq_true, iff_false]
            exact fun hin => hnd.1 (mem_map_fst_of_mem_filter hin)
      · have hne : pg.1 ≠ q.1 :=
          fun he => hnd.1 (he ▸ List.mem_map_of_mem Prod.fst hmem)
        rw [← ih hnd.2 pg hmem]
        cases hc : c q with
        | true => simp [List.filter_cons, hc, hne]
        | false => simp [List.filter_cons, hc]

theorem updateHashesCore_changed_iff (cached current : List (String × Option String)) :
    (updateHashesCore cached current).1 = true ↔
      trackedCategoryChanged cached current := by
  unfold updateHashesCore trackedCategoryChanged
  simp [List.any_eq_true, Option.isNone_iff_eq_none]

theorem updateComponentHashes_changed_iff (cached : List (String × Option String))
    (dir : Option (List (String × Option String))) :
    (updateComponentHashes cached dir).1 = true ↔
      ∃ files, dir = some files ∧
        trackedCategoryChanged cached
          (files.filter (fun f => basename f.1 != "__init__.py")) := by
  cases dir with
  | none => simp [updateComponentHashes]
  | some files => simp [updateComponentHashes, updateHashesCore_changed_iff]

theorem updateDataHashes_changed_iff (cached : List (String × Option String))
    (dir : Option (List (String × Option String))) :
    (updateDataHashes cached dir).1 = true ↔
      ∃ files, dir = some files ∧ trackedCategoryChanged cached files := by
  cases dir with
  | none => simp [updateDataHashes]
  | some files => simp [updateDataHashes, updateHashesCore_changed_iff]

/-- Counterexample to claim C4 as stated: when the components directory has
been deleted outright (so every tracked component file is gone, which the
claim counts as removed), get_changed_pages still selects nothing, because
the code reports no change for a missing directory; so membership in the
selection is not equivalent to the claim formula. -/
theorem c4_counterexample :
    ¬(("src/pages/index.py" ∈
        (get_changed_pages
          ⟨[("src/pages/index.py", some "ph")],
           [("src/components/header.py", some "h1")], []⟩
          [("src/pages/index.py", some "ph")] none none).1) ↔
      (some "ph" ≠ (List.lookup "src/pages/index.py"
          [("src/pages/index.py", some "ph")]).bind id
       ∨ claimCategoryChanged [("src/components/header.py", some "h1")] none
       ∨ claimCategoryChanged ([] : List (String × Option String)) none
       ∨ List.lookup "src/pages/index.py"
           [("src/pages/index.py", some "ph")] = none)) := by
  decide

/-- Claim C4 (amended): a page is selected for rebuild if and only if its
current hash differs from its cached hash, or the component category
changed, or the data category changed, or it has no prior cache entry —
where a category change requires the directory to exist and some tracked
file in it to have been added, removed or changed (a missing directory
counts as unchanged); in particular any single component change selects
every static page. -/
theorem c4_cache_selection (cache : BuildCacheState)
    (pages : List (String × Option String))
    (compDir dataDir : Option (List (String × Option String)))
    (hnd : (pages.map Prod.fst).Nodup) :
    (∀ pg ∈ pages,
      (pg.1 ∈ (get_changed_pages cache pages compDir dataDir).1 ↔
        (pg.2 ≠ (List.lookup pg.1 cache.pages).bind id
         ∨ (∃ files, compDir = some files ∧
              trackedCategoryChanged cache.components
                (files.filter (fun f => basename f.1 != "__init__.py")))
         ∨ (∃ files, dataDir = some files ∧
              trackedCategoryChanged cache.dataFiles files)
         ∨ List.lookup pg.1 cache.pages = none))) ∧
    ((∃ files, compDir = some files ∧
        trackedCategoryChanged cache.components
          (files.filter (fun f => basename f.1 != "__init__.py"))) →
      ∀ pg ∈ pages, pg.1 ∈ (get_changed_pages cache pages compDir dataDir).1) := by
  have hiff : ∀ pg ∈ pages,
      (pg.1 ∈ (get_changed_pages cache pages compDir dataDir).1 ↔
        (pg.2 ≠ (List.lookup pg.1 cache.pages).bind id
         ∨ (∃ files, compDir = some files ∧
              trackedCategoryChanged cache.components
                (files.filter (fun f => basename f.1 != "__init__.py")))
         ∨ (∃ files, dataDir = some files ∧
              trackedCategoryChanged cache.dataFiles files)
         ∨ List.lookup pg.1 cache.pages = none)) := by
    intro pg hpg
    have hmem := mem_map_fst_filter_iff
      (pageNeedsRebuild cache.pages
        (updateComponentHashes cache.components compDir).1
        (updateDataHashes cache.dataFiles dataDir).1)
      pages hnd pg hpg
    unfold get_changed_pages
    rw [hmem]
    unfold pageNeedsRebuild
    rw [← updateComponentHashes_changed_iff cache.components compDir,
      ← updateDataHashes_changed_iff cache.dataFiles dataDir]
    simp [Option.isNone_iff_eq_none, or_assoc]
  exact ⟨hiff, fun hcomp pg hpg => (hiff pg hpg).2 (Or.inr (Or.inl hcomp))⟩

/-- Witness for C4: a page whose content hash moved from oldhash to newhash
is selected for rebuild. -/
theorem c4_witness :
    "src/pages/index.py" ∈
      (get_changed_pages
        ⟨[("src/pages/index.py", some "oldhash")], [], []⟩
        [("src/pages/index.py", some "newhash")] (some []) (some [])).1 :=
  ((c4_cache_selection
      ⟨[("src/pages/index.py", some "oldhash")], [], []⟩
      [("src/pages/index.py", some "newhash")] (some []) (some [])
      (by decide)).1
    ("src/pages/index.py", some "newhash") (by decide)).2
    (Or.inl (by decide))

/-- A props value of an Island: the JSON-encodable scalars (a nested props
dict is canonicalized by the same key sort recursively; the flat case
modelled here carries the whole content of the claim). -/
inductive PropVal where
  | pstr (s : String)
  | pint (n : Int)
  | pbool (b : Bool)
deriving Repr, DecidableEq

/-- Lower-case hex digit. -/
def hexDigitChar (n : Nat) : Char :=
  if n < 10 then Char.ofNat (48 + n) else Char.ofNat (87 + n)

/-- Four-digit lower-case hex rendering (for JSON unicode escapes). -/
def hex4 (n : Nat) : String :=
  String.mk ((List.range 4).map (fun i => hexDigitChar (n / 16 ^ (3 - i) % 16)))

/-- Eight-digit lower-case hex rendering: the shape of the first eight
characters of a hexdigest, i.e. of the first four digest bytes. -/
def hex8 (v : Nat) : String :=
  String.mk ((List.range 8).map (fun i => hexDigitChar (v / 16 ^ (7 - i) % 16)))

/-- JSON string escaping as performed by json.dumps with its default
ensure_ascii: quote, backslash and the named control escapes, a uXXXX escape
for other control and non-ASCII characters, and a surrogate pair beyond the
basic multilingual plane. -/
def jsonEscapeChar (c : Char) : String :=
  if c = '"' then "\\\""
  else if c = '\\' then "\\\\"
  else if c.toNat = 8 then "\\b"
  else if c.toNat = 12 then "\\f"
  else if c = '\n' then "\\n"
  else if c = '\r' then "\\r"
  else if c = '\t' then "\\t"
  else if c.toNat < 32 then "\\u" ++ hex4 c.toNat
  else if c.toNat < 127 then String.singleton c
  else if c.toNat < 65536 then "\\u" ++ hex4 c.toNat
  else
    "\\u" ++ hex4 (55296 + (c.toNat - 65536) / 1024)
      ++ "\\u" ++ hex4 (56320 + (c.toNat - 65536) % 1024)

/-- JSON string literal. -/
def jsonQuote (s : String) : String :=
  "\"" ++ String.join (s.toList.map jsonEscapeChar) ++ "\""

/-- JSON rendering of a props value. -/
def propValJson : PropVal → String
  | PropVal.pstr s => jsonQuote s
  | PropVal.pint n => toString n
  | PropVal.pbool b => if b then "true" else "false"

/-- Key-sorted entry order produced by json.dumps sort_keys=True: a stable
sort by key. -/
def sortEntries (props : List (String × PropVal)) : List (String × PropVal) :=
  props.mergeSort (fun a b => decide (a.1 ≤ b.1))

/-- json.dumps(props, sort_keys=True, default=str) over a props dict: the
canonical key-sorted JSON text with the default item and key-value
separators. -/
def dumpsSorted (props : List (String × PropVal)) : String :=
  "\x7b" ++ String.intercalate ", "
    ((sortEntries props).map (fun e => jsonQuote e.1 ++ ": " ++ propValJson e.2))
    ++ "\x7d"

/-- Island.__post_init__ (islands.py lines 77-82): the instance identity is
the island name, a hyphen, and the first eight hex characters of the MD5
digest of the canonical props JSON.  The digest truncated to its first four
bytes is a 32-bit value; it is abstracted here as an arbitrary function into
Fin (2 ^ 32), of which the real MD5 truncation is one instance, so
everything proved below holds for the actual code. -/
def islandId (hash : String → Fin (2 ^ 32)) (name : String)
    (props : List (String × PropVal)) : String :=
  name ++ "-" ++ hex8 (hash (dumpsSorted props)).val

theorem sortEntries_eq_of_perm (l₁ l₂ : List (String × PropVal))
    (hperm : List.Perm l₁ l₂) (hnd : (l₁.map Prod.fst).Nodup) :
    sortEntries l₁ = sortEntries l₂ := by
  have hp : List.Perm (sortEntries l₁) (sortEntries l₂) :=
    (List.mergeSort_perm l₁ _).trans (hperm.trans (List.mergeSort_perm l₂ _).symm)
  have hle : ∀ (l : List (String × PropVal)),
      (sortEntries l).Pairwise (fun a b => a.1 ≤ b.1) := by
    intro l
    have hsorted : (l.mergeSort
        (fun (a b : String × PropVal) => decide (a.1 ≤ b.1))).Pairwise
        (fun a b => decide (a.1 ≤ b.1) = true) :=
      List.sorted_mergeSort
        (by intro a b cc hab hbc
            simp only [decide_eq_true_eq] at hab hbc ⊢
            exact le_trans hab hbc)
        (by intro a b
            simp only [Bool.or_eq_true, decide_eq_true_eq]
            exact le_total a.1 b.1)
        l
    exact hsorted.imp (fun h => by simpa using h)
  have hnd₂ : ((sortEntries l₂).map Prod.fst).Nodup := by
    have h2 : (l₂.map Prod.fst).Nodup :=
      ((hperm.map Prod.fst).nodup_iff).1 hnd
    exact (((List.mergeSort_perm l₂ _).map Prod.fst).nodup_iff).2 h2
  have hnd₁ : ((sortEntries l₁).map Prod.fst).Nodup := by
    exact (((List.mergeSort_perm l₁ _).map Prod.fst).nodup_iff).2 hnd
  have hlt : ∀ (l : List (String × PropVal)),
      ((sortEntries l).map Prod.fst).Nodup →
      (sortEntries l).Pairwise (fun a b => a.1 < b.1) := by
    intro l hn
    have hne : (sortEntries l).Pairwise (fun a b => a.1 ≠ b.1) :=
      (List.pairwise_map).1 hn
    exact ((hle l).and hne).imp (fun h => lt_of_le_of_ne h.1 h.2)
  haveI : IsAntisymm (String × PropVal) (fun a b => a.1 < b.1) :=
    ⟨fun a b h1 h2 => absurd h1 (asymm h2)⟩
  exact List.eq_of_perm_of_sorted hp (hlt l₁ hnd₁) (hlt l₂ hnd₂)

/-- Counterexample to claim C9 as stated: no 32-bit hash of the canonical
props JSON — in particular not the MD5 truncation the code uses — can make
the island identity injective in the props: by pigeonhole two different
props bags must share an identity, so changing a prop value does not always
change the identity. -/
theorem c9_counterexample :
    ¬ ∃ hash : String → Fin (2 ^ 32),
      ∀ (p q : List (String × PropVal)), p ≠ q →
        islandId hash "counter" p ≠ islandId hash "counter" q := by
  rintro ⟨hash, hinj⟩
  obtain ⟨n, m, hne, heq⟩ :=
    Finite.exists_ne_map_eq_of_infinite
      (fun n : ℕ => hash (dumpsSorted [("n", PropVal.pint (n : Int))]))
  refine hinj [("n", PropVal.pint (n : Int))] [("n", PropVal.pint (m : Int))]
    (fun h => hne ?_) ?_
  · simp only [List.cons.injEq, Prod.mk.injEq, PropVal.pint.injEq, and_true,
      true_and, and_self] at h
    exact_mod_cast h
  · simp only [islandId]
    rw [heq]

/-- Claim C9 (amended): the island identity is the name joined by a hyphen
to the eight-hex-character hash of the canonical key-sorted JSON of the
props, so two instances with the same name and the same props — regardless
of key insertion order — get the same identity; but distinct props do not
always give distinct identities, since the hash is truncated to 32 bits
(see the counterexample). -/
theorem c9_island_identity (hash : String → Fin (2 ^ 32)) (name : String)
    (props₁ props₂ : List (String × PropVal))
    (hnd : (props₁.map Prod.fst).Nodup)
    (hperm : List.Perm props₁ props₂) :
    islandId hash name props₁ = islandId hash name props₂ ∧
    islandId hash name props₁
      = name ++ "-" ++ hex8 (hash (dumpsSorted props₁)).val ∧
    (hex8 (hash (dumpsSorted props₁)).val).length = 8 := by
  refine ⟨?_, rfl, ?_⟩
  · have hs : dumpsSorted props₁ = dumpsSorted props₂ := by
      unfold dumpsSorted
      rw [sortEntries_eq_of_perm props₁ props₂ hperm hnd]
    simp only [islandId, hs]
  · simp [hex8, String.length]

/-- Witness for C9: with a concrete hash function, two concrete props bags
differing only in insertion order get the same identity. -/
theorem c9_witness :
    islandId (fun _ => ⟨0, by norm_num⟩) "counter"
      [("b", PropVal.pint 2), ("a", PropVal.pint 1)]
      = islandId (fun _ => ⟨0, by norm_num⟩) "counter"
      [("a", PropVal.pint 1), ("b", PropVal.pint 2)] :=
  (c9_island_identity (fun _ => ⟨0, by norm_num⟩) "counter"
    [("b", PropVal.pint 2), ("a", PropVal.pint 1)]
    [("a", PropVal.pint 1), ("b", PropVal.pint 2)]
    (by decide) (by decide)).1

/-- A parsed markdown document as produced by MarkdownProcessor.parse
(markdown.py lines 102-129): converted HTML content, the raw markdown body
and the frontmatter mapping. -/
structure MarkdownDocument where
  content : String
  raw_content : String
  frontmatter : List (String × PyVal)

/-- The attribute names that class MarkdownProcessor defines (markdown.py
lines 65-180). -/
def markdownProcessorMethods : List String :=
  ["__init__", "_ensure_dependencies", "parse", "parse_file", "find_content_files"]

/-- Python attribute lookup on a MarkdownProcessor instance. -/
def processorHasAttr (attr : String) : Bool :=
  markdownProcessorMethods.contains attr

/-- A markdown file found by the collection glob, together with what
MarkdownProcessor.parse_file would produce for it (none when the external
markdown or frontmatter dependency is unavailable). -/
structure MdFile where
  name : String
  stem : String
  parsed : Option MarkdownDocument

/-- The call processor.process_file(md_file) at collections.py line 423,
with Python attribute dispatch made explicit: were the attribute present it
would parse the file, but MarkdownProcessor defines parse_file and no
process_file, so the call raises AttributeError. -/
def callProcessFile (f : MdFile) : Except String MarkdownDocument :=
  if processorHasAttr "process_file" then
    match f.parsed with
    | some doc => Except.ok doc
    | none => Except.error "AttributeError: NoneType object has no attribute frontmatter"
  else
    Except.error "AttributeError: MarkdownProcessor object has no attribute process_file"

/-- Python truthiness, as used by the slug fallback
validated_data.get(slug) or entry_id. -/
def pyTruthy : PyVal → Bool
  | PyVal.vstr s => !(s == "")
  | PyVal.vint n => !(n == 0)
  | PyVal.vbool b => b
  | PyVal.vnone => false
  | PyVal.vlist xs => !xs.isEmpty
  | PyVal.vdict d => !d.isEmpty

/-- A loaded collection entry (collections.py lines 361-371). -/
structure CollectionEntry where
  id : String
  slug : PyVal
  fmData : List (String × PyVal)
  content : String
  raw_content : String
  collection : String

/-- One iteration of the per-file loop of ContentCollection.load
(collections.py lines 421-451): parse via the processor inside a try block
whose except clause records the fault as a validation error and skips the
file; validate the frontmatter, excluding the entry and recording the
errors when invalid; otherwise build the entry, its slug being the
validated slug field when truthy, else the file stem.  The schema is passed
as its validate function, returning (is_valid, validated_data, errors). -/
def loadStep
    (validate : List (String × PyVal) → Bool × List (String × PyVal) × List String)
    (collName : String) (acc : List CollectionEntry × List String) (f : MdFile) :
    List CollectionEntry × List String :=
  match callProcessFile f with
  | Except.error e => (acc.1, acc.2 ++ [f.name ++ ": " ++ e])
  | Except.ok doc =>
      let r := validate doc.frontmatter
      if r.1 then
        let slugVal :=
          match dget r.2.1 "slug" with
          | some v => if pyTruthy v then v else PyVal.vstr f.stem
          | none => PyVal.vstr f.stem
        (acc.1 ++ [⟨f.stem, slugVal, r.2.1, doc.content, doc.raw_content, collName⟩],
         acc.2)
      else (acc.1, acc.2 ++ r.2.2.map (fun err => f.name ++ ": " ++ err))

/-- ContentCollection.load (collections.py lines 396-459) over the glob
listing of an existing content directory, with the default
MarkdownProcessor. -/
def ContentCollection.load
    (validate : List (String × PyVal) → Bool × List (String × PyVal) × List String)
    (collName : String) (files : List MdFile) :
    List CollectionEntry × List String :=
  files.foldl (loadStep validate collName) ([], [])

theorem load_foldl_general
    (validate : List (String × PyVal) → Bool × List (String × PyVal) × List String)
    (collName : String) :
    ∀ (files : List MdFile) (acc : List CollectionEntry × List String),
      (files.foldl (loadStep validate collName) acc).1 = acc.1 ∧
      (files.foldl (loadStep validate collName) acc).2.length
        = acc.2.length + files.length := by
  intro files
  induction files with
  | nil => intro acc; simp
  | cons f rest ih =>
      intro acc
      have hattr : processorHasAttr "process_file" = false := by decide
      have hstep : loadStep validate collName acc f
          = (acc.1, acc.2 ++ [f.name ++ ": "
              ++ "AttributeError: MarkdownProcessor object has no attribute process_file"]) := by
        unfold loadStep callProcessFile
        rw [hattr]
        simp
      obtain ⟨ih1, ih2⟩ := ih (loadStep validate collName acc f)
      refine ⟨?_, ?_⟩
      · rw [List.foldl_cons, ih1, hstep]
      · rw [List.foldl_cons, ih2, hstep]
        simp only [List.length_append, List.length_cons, List.length_nil]
        omega

/-- Claim C1 names a code bug: ContentCollection.load invokes
processor.process_file (collections.py line 423), but MarkdownProcessor
defines parse_file and no process_file, so every file raises AttributeError
inside the per-file try block, is recorded as a validation error and is
excluded — whatever its frontmatter and whatever the schema.  load
therefore returns no entry at all and one error per file, where the claim
(and the specification it quotes) promise every successfully validated
entry with its slug. -/
theorem c1_load_excludes_every_entry
    (validate : List (String × PyVal) → Bool × List (String × PyVal) × List String)
    (collName : String) (files : List MdFile) :
    (ContentCollection.load validate collName files).1 = [] ∧
    (ContentCollection.load validate collName files).2.length = files.length := by
  obtain ⟨h1, h2⟩ := load_foldl_general validate collName files ([], [])
  exact ⟨h1, by simpa using h2⟩

/-!
Heap embedding for claim C10.  NitroDataStore.to_dict returns
_deep_copy(self._data) (datastore.py lines 233-239 and 894-910), and the
interesting content of the claim is about object identity: mutating the
returned structure must not be visible through the store, whereas the
subscript wrappers share the underlying objects.  Python object references
are modelled by an explicit heap: addresses are naturals, each address holds
one object — a scalar (immutable in Python), a dict of key-address pairs, or
a list of addresses — and an allocation counter bounds the used addresses.
-/

/-- Scalar heap values: the immutable Python objects, which _deep_copy
returns as-is (its else branch). -/
inductive HVal where
  | hstr (s : String)
  | hint (n : Int)
  | hbool (b : Bool)
  | hnone
deriving Repr, DecidableEq

/-- One Python object on the heap. -/
inductive HNode where
  | leaf (v : HVal)
  | dictNode (entries : List (String × Nat))
  | listNode (elems : List Nat)
deriving Repr, DecidableEq

/-- The heap: an association of addresses to objects. -/
abbrev Heap : Type := List (Nat × HNode)

/-- Dereference an address. -/
def hlookup (h : Heap) (a : Nat) : Option HNode :=
  match h with
  | [] => none
  | (a', n) :: rest => if a' = a then some n else hlookup rest a

/-- In-place mutation of the object at an address (what Python does when a
dict or list is mutated through any reference to it). -/
def hset : Heap → Nat → HNode → Heap
  | [], a, n => [(a, n)]
  | (a', n') :: rest, a, n =>
      if a' = a then (a, n) :: rest else (a', n') :: hset rest a n

/-- The addresses a node refers to. -/
def nodeRefs : HNode → List Nat
  | HNode.leaf _ => []
  | HNode.dictNode es => es.map Prod.snd
  | HNode.listNode xs => xs

/-- The PyVal a scalar node denotes. -/
def leafVal : HVal → PyVal
  | HVal.hstr s => PyVal.vstr s
  | HVal.hint n => PyVal.vint n
  | HVal.hbool b => PyVal.vbool b
  | HVal.hnone => PyVal.vnone

/-- Reads the values of a dict node entry list with a given reader. -/
def readEntriesWith (f : Nat → Option PyVal) :
    List (String × Nat) → Option (List (String × PyVal))
  | [] => some []
  | (k, a) :: rest =>
      match f a, readEntriesWith f rest with
      | some v, some vs => some ((k, v) :: vs)
      | _, _ => none

/-- Reads the elements of a list node with a given reader. -/
def readElemsWith (f : Nat → Option PyVal) : List Nat → Option (List PyVal)
  | [] => some []
  | a :: rest =>
      match f a, readElemsWith f rest with
      | some v, some vs => some (v :: vs)
      | _, _ => none

/-- The value tree observed from an address: what the store contents look
like through get, has, list_paths or any other read — all of which are
functions of this tree.  Fuel bounds the depth (Python data is finite and
acyclic, so enough fuel reads everything). -/
def readV : Nat → Heap → Nat → Option PyVal
  | 0, _, _ => none
  | fuel + 1, h, a =>
      match hlookup h a with
      | some (HNode.leaf v) => some (leafVal v)
      | some (HNode.dictNode es) =>
          (readEntriesWith (fun b => readV fuel h b) es).map PyVal.vdict
      | some (HNode.listNode xs) =>
          (readElemsWith (fun b => readV fuel h b) xs).map PyVal.vlist
      | none => none

/-- Copies a dict entry list with a given single-address copier, threading
heap and counter left to right. -/
def copyEntriesWith (f : Heap → Nat → Nat → Option (Heap × Nat × Nat)) :
    Heap → Nat → List (String × Nat) → Option (Heap × Nat × List (String × Nat))
  | h, c, [] => some (h, c, [])
  | h, c, (k, a) :: rest =>
      match f h c a with
      | some (h₁, c₁, r) =>
          match copyEntriesWith f h₁ c₁ rest with
          | some (h₂, c₂, rs) => some (h₂, c₂, (k, r) :: rs)
          | none => none
      | none => none

/-- Copies a list of addresses with a given single-address copier. -/
def copyElemsWith (f : Heap → Nat → Nat → Option (Heap × Nat × Nat)) :
    Heap → Nat → List Nat → Option (Heap × Nat × List Nat)
  | h, c, [] => some (h, c, [])
  | h, c, a :: rest =>
      match f h c a with
      | some (h₁, c₁, r) =>
          match copyElemsWith f h₁ c₁ rest with
          | some (h₂, c₂, rs) => some (h₂, c₂, r :: rs)
          | none => none
      | none => none

/-- NitroDataStore._deep_copy (datastore.py lines 894-910) over the heap: a
dict allocates a fresh dict object whose values are deep copies, a list
allocates a fresh list object of deep copies, and a scalar is returned
as-is — the same object reference.  Returns the extended heap, the new
allocation counter and the address of the copy; none on fuel exhaustion or a
dangling reference. -/
def deepCopy1 : Nat → Heap → Nat → Nat → Option (Heap × Nat × Nat)
  | 0, _, _, _ => none
  | fuel + 1, h, c, a =>
      match hlookup h a with
      | some (HNode.leaf _) => some (h, c, a)
      | some (HNode.dictNode es) =>
          match copyEntriesWith (fun h2 c2 b => deepCopy1 fuel h2 c2 b) h c es with
          | some (h₁, c₁, rs) =>
              some (h₁ ++ [(c₁, HNode.dictNode rs)], c₁ + 1, c₁)
          | none => none
      | some (HNode.listNode xs) =>
          match copyElemsWith (fun h2 c2 b => deepCopy1 fuel h2 c2 b) h c xs with
          | some (h₁, c₁, rs) =>
              some (h₁ ++ [(c₁, HNode.listNode rs)], c₁ + 1, c₁)
          | none => none
      | none => none

/-- NitroDataStore.__getitem__ on a dict-valued key (datastore.py lines
817-823): the nested dict is wrapped in a new store, not copied — the
wrapper holds the very same object reference, so mutations through it are
visible through the parent. -/
def getitemAddr (h : Heap) (root : Nat) (key : String) : Option Nat :=
  match hlookup h root with
  | some (HNode.dictNode es) =>
      match es.find? (fun e => e.1 == key) with
      | some e => some e.2
      | none => none
  | _ => none

/-- Heap well-formedness with respect to an allocation counter: every used
address and every reference is below the counter. -/
def HeapWF (h : Heap) (c : Nat) : Prop :=
  ∀ p ∈ h, p.1 < c ∧ ∀ b ∈ nodeRefs p.2, b < c

/-- A reference produced by the copy: either freshly allocated, or a shared
scalar of the original heap. -/
def GoodRef (h : Heap) (c : Nat) (b : Nat) : Prop :=
  c ≤ b ∨ (b < c ∧ ∃ v, hlookup h b = some (HNode.leaf v))

/-- The shape of a heap after a copy: the original heap extended by fresh
nodes only, every one of whose references is fresh or a shared original
scalar. -/
def CopyExtension (h : Heap) (c : Nat) (h' : Heap) (c' : Nat) : Prop :=
  c ≤ c' ∧ ∃ t, h' = h ++ t ∧
    ∀ p ∈ t, c ≤ p.1 ∧ p.1 < c' ∧ ∀ b ∈ nodeRefs p.2, b < c' ∧ GoodRef h c b

/-- Addresses reachable from a root by following references. -/
inductive Reach (h : Heap) : Nat → Nat → Prop
  | refl (a : Nat) : Reach h a a
  | step {a b cc : Nat} {node : HNode} :
      Reach h a b → hlookup h b = some node → cc ∈ nodeRefs node →
      Reach h a cc

/-- The address holds a mutable container (a dict or a list). -/
def containerAt (h : Heap) (b : Nat) : Prop :=
  (∃ es, hlookup h b = some (HNode.dictNode es)) ∨
  (∃ xs, hlookup h b = some (HNode.listNode xs))

theorem hlookup_mem (h : Heap) (a : Nat) (n : HNode)
    (hl : hlookup h a = some n) : (a, n) ∈ h := by
  induction h with
  | nil => simp [hlookup] at hl
  | cons p rest ih =>
      obtain ⟨a', n'⟩ := p
      by_cases he : a' = a
      · subst he
        simp only [hlookup, if_true, eq_self_iff_true, Option.some.injEq] at hl
        subst hl
        exact List.mem_cons_self _ _
      · simp only [hlookup, if_neg he] at hl
        exact List.mem_cons_of_mem _ (ih hl)

theorem hlookup_append_of_none (h t : Heap) (a : Nat)
    (hn : ∀ p ∈ t, p.1 ≠ a) : hlookup (h ++ t) a = hlookup h a := by
  induction h with
  | nil =>
      simp only [List.nil_append, hlookup]
      induction t with
      | nil => rfl
      | cons p rest ih =>
          obtain ⟨a', n'⟩ := p
          have h1 : a' ≠ a := hn (a', n') (List.mem_cons_self _ _)
          simp only [hlookup, if_neg h1]
          exact ih (fun q hq => hn q (List.mem_cons_of_mem _ hq))
  | cons p rest ih =>
      obtain ⟨a', n'⟩ := p
      by_cases he : a' = a
      · simp [hlookup, he]
      · simpa [hlookup, he] using ih

theorem hlookup_hset_ne (h : Heap) (a b : Nat) (n : HNode) (hne : a ≠ b) :
    hlookup (hset h b n) a = hlookup h a := by
  induction h with
  | nil => simp [hlookup, hset, Ne.symm hne]
  | cons p rest ih =>
      obtain ⟨a', n'⟩ := p
      by_cases he : a' = b
      · subst he
        simp [hlookup, hset, Ne.symm hne]
      · simp [hlookup, hset, he, ih]

theorem CopyExtension.agree {h : Heap} {c : Nat} {h' : Heap} {c' : Nat}
    (hx : CopyExtension h c h' c') (a : Nat) (ha : a < c) :
    hlookup h' a = hlookup h a := by
  obtain ⟨_, t, rfl, ht⟩ := hx
  exact hlookup_append_of_none h t a
    (fun p hp => Nat.ne_of_gt (lt_of_lt_of_le ha (ht p hp).1))

theorem CopyExtension.rfl_self (h : Heap) (c : Nat) : CopyExtension h c h c :=
  ⟨le_refl c, [], by simp, by simp⟩

theorem CopyExtension.trans {h : Heap} {c : Nat} {h₁ : Heap} {c₁ : Nat}
    {h₂ : Heap} {c₂ : Nat}
    (x1 : CopyExtension h c h₁ c₁) (x2 : CopyExtension h₁ c₁ h₂ c₂) :
    CopyExtension h c h₂ c₂ := by
  obtain ⟨hc1, t₁, rfl, ht₁⟩ := x1
  obtain ⟨hc2, t₂, he, ht₂⟩ := x2
  refine ⟨le_trans hc1 hc2, t₁ ++ t₂, by rw [he, List.append_assoc], ?_⟩
  intro p hp
  rcases List.mem_append.1 hp with hp1 | hp2
  · obtain ⟨g1, g2, g3⟩ := ht₁ p hp1
    exact ⟨g1, lt_of_lt_of_le g2 hc2,
      fun b hb => ⟨lt_of_lt_of_le ((g3 b hb).1) hc2, (g3 b hb).2⟩⟩
  · obtain ⟨g1, g2, g3⟩ := ht₂ p hp2
    refine ⟨le_trans hc1 g1, g2, ?_⟩
    intro b hb
    obtain ⟨g4, g5⟩ := g3 b hb
    refine ⟨g4, ?_⟩
    rcases g5 with h5 | ⟨h5, v, h6⟩
    · exact Or.inl (le_trans hc1 h5)
    · rcases le_or_lt c b with hcb | hcb
      · exact Or.inl hcb
      · refine Or.inr ⟨hcb, v, ?_⟩
        rw [← h6]
        exact (hlookup_append_of_none h t₁ b
          (fun p hp => Nat.ne_of_gt (lt_of_lt_of_le hcb (ht₁ p hp).1))).symm

theorem CopyExtension.snoc {h : Heap} {c : Nat} {h₁ : Heap} {c₁ : Nat}
    (x1 : CopyExtension h c h₁ c₁) (node : HNode)
    (hrefs : ∀ b ∈ nodeRefs node, b < c₁ ∧ GoodRef h c b) :
    CopyExtension h c (h₁ ++ [(c₁, node)]) (c₁ + 1) := by
  obtain ⟨hc1, t₁, rfl, ht₁⟩ := x1
  refine ⟨le_trans hc1 (Nat.le_succ c₁), t₁ ++ [(c₁, node)],
    by rw [List.append_assoc], ?_⟩
  intro p hp
  rcases List.mem_append.1 hp with hp1 | hp2
  · obtain ⟨g1, g2, g3⟩ := ht₁ p hp1
    exact ⟨g1, lt_of_lt_of_le g2 (Nat.le_succ c₁),
      fun b hb => ⟨lt_of_lt_of_le ((g3 b hb).1) (Nat.le_succ c₁), (g3 b hb).2⟩⟩
  · simp only [List.mem_singleton] at hp2
    subst hp2
    exact ⟨hc1, Nat.lt_succ_self c₁,
      fun b hb => ⟨Nat.lt_succ_of_lt (hrefs b hb).1, (hrefs b hb).2⟩⟩

theorem HeapWF.of_extension {h : Heap} {c : Nat} {h' : Heap} {c' : Nat}
    (hwf : HeapWF h c) (hx : CopyExtension h c h' c') : HeapWF h' c' := by
  obtain ⟨hc, t, rfl, ht⟩ := hx
  intro p hp
  rcases List.mem_append.1 hp with hp1 | hp2
  · obtain ⟨g1, g2⟩ := hwf p hp1
    exact ⟨lt_of_lt_of_le g1 hc,
      fun b hb => lt_of_lt_of_le (g2 b hb) hc⟩
  · obtain ⟨g1, g2, g3⟩ := ht p hp2
    exact ⟨g2, fun b hb => (g3 b hb).1⟩

theorem GoodRef.mono {h : Heap} {c : Nat} {h₁ : Heap} {c₁ : Nat} {b : Nat}
    (x1 : CopyExtension h c h₁ c₁) (g : GoodRef h₁ c₁ b) : GoodRef h c b := by
  rcases g with hg | ⟨hb, v, hv⟩
  · exact Or.inl (le_trans x1.1 hg)
  · rcases le_or_lt c b with hcb | hcb
    · exact Or.inl hcb
    · exact Or.inr ⟨hcb, v, by rw [← x1.agree b hcb]; exact hv⟩

/-- Full specification of one _deep_copy call and of its child traversals:
the heap is only extended by fresh, well-bounded nodes whose references are
fresh or shared original scalars, and every produced reference is itself
fresh or a shared original scalar. -/
theorem deepCopy1_spec : ∀ (fuel : Nat),
    (∀ (h : Heap) (c a : Nat) (h' : Heap) (c' r : Nat),
      HeapWF h c → a < c → deepCopy1 fuel h c a = some (h', c', r) →
      CopyExtension h c h' c' ∧ r < c' ∧ GoodRef h c r) ∧
    (∀ (es : List (String × Nat)) (h : Heap) (c : Nat) (h' : Heap) (c' : Nat)
        (rs : List (String × Nat)),
      HeapWF h c → (∀ e ∈ es, e.2 < c) →
      copyEntriesWith (fun h2 c2 b => deepCopy1 fuel h2 c2 b) h c es
        = some (h', c', rs) →
      CopyExtension h c h' c' ∧ ∀ e ∈ rs, e.2 < c' ∧ GoodRef h c e.2) ∧
    (∀ (xs : List Nat) (h : Heap) (c : Nat) (h' : Heap) (c' : Nat)
        (rs : List Nat),
      HeapWF h c → (∀ x ∈ xs, x < c) →
      copyElemsWith (fun h2 c2 b => deepCopy1 fuel h2 c2 b) h c xs
        = some (h', c', rs) →
      CopyExtension h c h' c' ∧ ∀ r ∈ rs, r < c' ∧ GoodRef h c r) := by
  intro fuel
  induction fuel with
  | zero =>
      refine ⟨?_, ?_, ?_⟩
      · intro h c a h' c' r _ _ hcopy
        simp [deepCopy1] at hcopy
      · intro es h c h' c' rs _ _ hcopy
        cases es with
        | nil =>
            simp only [copyEntriesWith, Option.some.injEq, Prod.mk.injEq] at hcopy
            obtain ⟨rfl, rfl, rfl⟩ := hcopy
            exact ⟨CopyExtension.rfl_self h c, by simp⟩
        | cons e rest =>
            obtain ⟨k, a⟩ := e
            simp [copyEntriesWith, deepCopy1] at hcopy
      · intro xs h c h' c' rs _ _ hcopy
        cases xs with
        | nil =>
            simp only [copyElemsWith, Option.some.injEq, Prod.mk.injEq] at hcopy
            obtain ⟨rfl, rfl, rfl⟩ := hcopy
            exact ⟨CopyExtension.rfl_self h c, by simp⟩
        | cons a rest =>
            simp [copyElemsWith, deepCopy1] at hcopy
  | succ fuel ih =>
      obtain ⟨ih1, ih2, ih3⟩ := ih
      have hS1 : ∀ (h : Heap) (c a : Nat) (h' : Heap) (c' r : Nat),
          HeapWF h c → a < c → deepCopy1 (fuel + 1) h c a = some (h', c', r) →
          CopyExtension h c h' c' ∧ r < c' ∧ GoodRef h c r := by
        intro h c a h' c' r hwf ha hcopy
        unfold deepCopy1 at hcopy
        cases hl : hlookup h a with
        | none => rw [hl] at hcopy; simp at hcopy
        | some node =>
            rw [hl] at hcopy
            have hmem := hlookup_mem h a node hl
            cases node with
            | leaf v =>
                simp only [Option.some.injEq, Prod.mk.injEq] at hcopy
                obtain ⟨rfl, rfl, rfl⟩ := hcopy
                exact ⟨CopyExtension.rfl_self h c, ha, Or.inr ⟨ha, v, hl⟩⟩
            | dictNode es =>
                cases hce : copyEntriesWith
                    (fun h2 c2 b => deepCopy1 fuel h2 c2 b) h c es with
                | none => simp [hce] at hcopy
                | some res =>
                    obtain ⟨h₁, c₁, rs₁⟩ := res
                    simp only [hce, Option.some.injEq, Prod.mk.injEq] at hcopy
                    obtain ⟨rfl, rfl, rfl⟩ := hcopy
                    have hes : ∀ e ∈ es, e.2 < c := by
                      intro e he
                      exact (hwf _ hmem).2 e.2
                        (by simpa [nodeRefs] using List.mem_map_of_mem Prod.snd he)
                    obtain ⟨x1, hrs⟩ := ih2 es h c h₁ c₁ rs₁ hwf hes hce
                    refine ⟨x1.snoc (HNode.dictNode rs₁) ?_,
                      Nat.lt_succ_self c₁, Or.inl x1.1⟩
                    intro b hb
                    simp only [nodeRefs, List.mem_map] at hb
                    obtain ⟨e, he, rfl⟩ := hb
                    exact hrs e he
            | listNode xs =>
                cases hce : copyElemsWith
                    (fun h2 c2 b => deepCopy1 fuel h2 c2 b) h c xs with
                | none => simp [hce] at hcopy
                | some res =>
                    obtain ⟨h₁, c₁, rs₁⟩ := res
                    simp only [hce, Option.some.injEq, Prod.mk.injEq] at hcopy
                    obtain ⟨rfl, rfl, rfl⟩ := hcopy
                    have hxs : ∀ x ∈ xs, x < c := by
                      intro x hx
                      exact (hwf _ hmem).2 x (by simpa [nodeRefs] using hx)
                    obtain ⟨x1, hrs⟩ := ih3 xs h c h₁ c₁ rs₁ hwf hxs hce
                    refine ⟨x1.snoc (HNode.listNode rs₁) ?_,
                      Nat.lt_succ_self c₁, Or.inl x1.1⟩
                    intro b hb
                    simp only [nodeRefs] at hb
                    exact hrs b hb
      refine ⟨hS1, ?_, ?_⟩
      · intro es
        induction es with
        | nil =>
            intro h c h' c' rs _ _ hcopy
            simp only [copyEntriesWith, Option.some.injEq, Prod.mk.injEq] at hcopy
            obtain ⟨rfl, rfl, rfl⟩ := hcopy
            exact ⟨CopyExtension.rfl_self h c, by simp⟩
        | cons e rest ihr =>
            intro h c h' c' rs hwf hin hcopy
            obtain ⟨k, a⟩ := e
            unfold copyEntriesWith at hcopy
            cases hc1 : deepCopy1 (fuel + 1) h c a with
            | none => simp [hc1] at hcopy
            | some res1 =>
                obtain ⟨h₁, c₁, r⟩ := res1
                simp only [hc1] at hcopy
                cases hc2 : copyEntriesWith
                    (fun h2 c2 b => deepCopy1 (fuel + 1) h2 c2 b) h₁ c₁ rest with
                | none => simp [hc2] at hcopy
                | some res2 =>
                    obtain ⟨h₂, c₂, rs₂⟩ := res2
                    simp only [hc2, Option.some.injEq, Prod.mk.injEq] at hcopy
                    obtain ⟨rfl, rfl, rfl⟩ := hcopy
                    obtain ⟨x1, hr1, hg1⟩ := hS1 h c a h₁ c₁ r hwf
                      (hin (k, a) (List.mem_cons_self _ _)) hc1
                    obtain ⟨x2, hrs2⟩ := ihr h₁ c₁ h₂ c₂ rs₂
                      (hwf.of_extension x1)
                      (fun e he => lt_of_lt_of_le
                        (hin e (List.mem_cons_of_mem _ he)) x1.1) hc2
                    refine ⟨x1.trans x2, ?_⟩
                    intro e he
                    rcases List.mem_cons.1 he with rfl | he2
                    · exact ⟨lt_of_lt_of_le hr1 x2.1, hg1⟩
                    · exact ⟨(hrs2 e he2).1, GoodRef.mono x1 (hrs2 e he2).2⟩
      · intro xs
        induction xs with
        | nil =>
            intro h c h' c' rs _ _ hcopy
            simp only [copyElemsWith, Option.some.injEq, Prod.mk.injEq] at hcopy
            obtain ⟨rfl, rfl, rfl⟩ := hcopy
            exact ⟨CopyExtension.rfl_self h c, by simp⟩
        | cons a rest ihr =>
            intro h c h' c' rs hwf hin hcopy
            unfold copyElemsWith at hcopy
            cases hc1 : deepCopy1 (fuel + 1) h c a with
            | none => simp [hc1] at hcopy
            | some res1 =>
                obtain ⟨h₁, c₁, r⟩ := res1
                simp only [hc1] at hcopy
                cases hc2 : copyElemsWith
                    (fun h2 c2 b => deepCopy1 (fuel + 1) h2 c2 b) h₁ c₁ rest with
                | none => simp [hc2] at hcopy
                | some res2 =>
                    obtain ⟨h₂, c₂, rs₂⟩ := res2
                    simp only [hc2, Option.some.injEq, Prod.mk.injEq] at hcopy
                    obtain ⟨rfl, rfl, rfl⟩ := hcopy
                    obtain ⟨x1, hr1, hg1⟩ := hS1 h c a h₁ c₁ r hwf
                      (hin a (List.mem_cons_self _ _)) hc1
                    obtain ⟨x2, hrs2⟩ := ihr h₁ c₁ h₂ c₂ rs₂
                      (hwf.of_extension x1)
                      (fun x hx => lt_of_lt_of_le
                        (hin x (List.mem_cons_of_mem _ hx)) x1.1) hc2
                    refine ⟨x1.trans x2, ?_⟩
                    intro x hx
                    rcases List.mem_cons.1 hx with rfl | hx2
                    · exact ⟨lt_of_lt_of_le hr1 x2.1, hg1⟩
                    · exact ⟨(hrs2 x hx2).1, GoodRef.mono x1 (hrs2 x hx2).2⟩

theorem readEntriesWith_congr (f g : Nat → Option PyVal) :
    ∀ (es : List (String × Nat)), (∀ e ∈ es, f e.2 = g e.2) →
    readEntriesWith f es = readEntriesWith g es := by
  intro es
  induction es with
  | nil => intro _; rfl
  | cons e rest ih =>
      intro hfg
      obtain ⟨k, a⟩ := e
      simp only [readEntriesWith]
      rw [hfg (k, a) (List.mem_cons_self _ _),
        ih (fun e he => hfg e (List.mem_cons_of_mem _ he))]

theorem readElemsWith_congr (f g : Nat → Option PyVal) :
    ∀ (xs : List Nat), (∀ x ∈ xs, f x = g x) →
    readElemsWith f xs = readElemsWith g xs := by
  intro xs
  induction xs with
  | nil => intro _; rfl
  | cons a rest ih =>
      intro hfg
      simp only [readElemsWith]
      rw [hfg a (List.mem_cons_self _ _),
        ih (fun x hx => hfg x (List.mem_cons_of_mem _ hx))]

/-- Reading below the allocation counter is insensitive to any change of the
heap outside the addresses below the counter. -/
theorem readV_agree : ∀ (fuel : Nat) (h₁ h₂ : Heap) (c : Nat),
    (∀ a, a < c → hlookup h₂ a = hlookup h₁ a) → HeapWF h₁ c →
    ∀ a, a < c → readV fuel h₂ a = readV fuel h₁ a := by
  intro fuel
  induction fuel with
  | zero => intro h₁ h₂ c _ _ a _; rfl
  | succ fuel ih =>
      intro h₁ h₂ c hag hwf a ha
      unfold readV
      rw [hag a ha]
      cases hl : hlookup h₁ a with
      | none => rfl
      | some node =>
          have hrefs : ∀ b ∈ nodeRefs node, b < c :=
            (hwf (a, node) (hlookup_mem h₁ a node hl)).2
          cases node with
          | leaf v => rfl
          | dictNode es =>
              simp only [readEntriesWith_congr (fun b => readV fuel h₂ b)
                (fun b => readV fuel h₁ b) es
                (fun e he => ih h₁ h₂ c hag hwf e.2
                  (hrefs e.2 (by simpa [nodeRefs] using
                    List.mem_map_of_mem Prod.snd he)))]
          | listNode xs =>
              simp only [readElemsWith_congr (fun b => readV fuel h₂ b)
                (fun b => readV fuel h₁ b) xs
                (fun x hx => ih h₁ h₂ c hag hwf x
                  (hrefs x (by simpa [nodeRefs] using hx)))]

/-- Everything reachable from the copied root is fresh or a shared original
scalar. -/
theorem reach_of_copy {h : Heap} {c : Nat} {h' : Heap} {c' : Nat} {r' : Nat}
    (hwf : HeapWF h c) (hx : CopyExtension h c h' c') (hg : GoodRef h c r') :
    ∀ b, Reach h' r' b → GoodRef h c b := by
  intro b hr
  induction hr with
  | refl => exact hg
  | step hrab hlb hcc ih =>
      rcases ih with hfresh | ⟨hlt, v, hv⟩
      · obtain ⟨hc, t, rfl, ht⟩ := hx
        rcases List.mem_append.1 (hlookup_mem _ _ _ hlb) with hin | hin
        · exact absurd hfresh (not_le.2 (hwf _ hin).1)
        · exact ((ht _ hin).2.2 _ hcc).2
      · rw [hx.agree _ hlt, hv] at hlb
        injection hlb with hnode
        subst hnode
        simp [nodeRefs] at hcc

/-- The three-object example store {site: {name: A}}: address 0 the root
dict, address 1 the nested site dict, address 2 the scalar. -/
def exampleHeap : Heap :=
  [(0, HNode.dictNode [("site", 1)]),
   (1, HNode.dictNode [("name", 2)]),
   (2, HNode.leaf (HVal.hstr "A"))]

/-- Claim C10: to_dict returns a deep copy of the store root value — the
copy leaves the store content (the value tree read from the original root,
of which get, has and list_paths are functions) unchanged, every map or
sequence reachable from the copy is freshly allocated, and mutating any
fresh address leaves the content read from the original root unchanged; in
contrast (on the concrete example store) a subscript read hands out the
same underlying address, and mutating through it changes what the store
reads. -/
theorem c10_to_dict_deep_copy (fuel : Nat) (h : Heap) (c r : Nat)
    (h' : Heap) (c' r' : Nat)
    (hwf : HeapWF h c) (hr : r < c)
    (hcopy : deepCopy1 fuel h c r = some (h', c', r')) :
    (∀ f2, readV f2 h' r = readV f2 h r) ∧
    (∀ (b : Nat) (node : HNode) (f2 : Nat), c ≤ b →
      readV f2 (hset h' b node) r = readV f2 h r) ∧
    (∀ b, Reach h' r' b → containerAt h' b → c ≤ b) ∧
    (getitemAddr exampleHeap 0 "site" = some 1 ∧
     readV 3 exampleHeap 0
       = some (PyVal.vdict [("site", PyVal.vdict [("name", PyVal.vstr "A")])]) ∧
     readV 3 (hset exampleHeap 1 (HNode.dictNode [])) 0
       = some (PyVal.vdict [("site", PyVal.vdict [])])) := by
  obtain ⟨hx, hr', hg⟩ := (deepCopy1_spec fuel).1 h c r h' c' r' hwf hr hcopy
  refine ⟨?_, ?_, ?_, rfl, rfl, rfl⟩
  · intro f2
    exact readV_agree f2 h h' c (fun a ha => hx.agree a ha) hwf r hr
  · intro b node f2 hb
    refine readV_agree f2 h (hset h' b node) c ?_ hwf r hr
    intro a ha
    rw [hlookup_hset_ne h' a b node (Nat.ne_of_lt (lt_of_lt_of_le ha hb)),
      hx.agree a ha]
  · intro b hrb hcont
    rcases reach_of_copy hwf hx hg b hrb with hge | ⟨hlt, v, hv⟩
    · exact hge
    · unfold containerAt at hcont
      rw [hx.agree b hlt, hv] at hcont
      rcases hcont with ⟨es, hes⟩ | ⟨xs, hxs⟩
      · simp at hes
      · simp at hxs

/-- Witness for C10: on the example store, the copy allocates fresh
addresses 3 and 4; mutating the fresh nested dict (address 3) leaves the
store content unchanged. -/
theorem c10_witness :
    readV 3
      (hset
        (exampleHeap ++
          [(3, HNode.dictNode [("name", 2)]), (4, HNode.dictNode [("site", 3)])])
        3 (HNode.dictNode [])) 0
      = readV 3 exampleHeap 0 :=
  (c10_to_dict_deep_copy 3 exampleHeap 3 0
    (exampleHeap ++
      [(3, HNode.dictNode [("name", 2)]), (4, HNode.dictNode [("site", 3)])])
    5 4
    (by unfold HeapWF; decide) (by decide) (by decide)).2.1 3 (HNode.dictNode []) 3
    (by decide)

end Nitro
